import Mathlib

/-!
Verification development for the die-conversion engine of `exercise4/dice.py`
(CaveMike/dice): a shallow embedding of the converter classes (`DiePower`,
`DieCombo`, `DieDivider`) and of the deterministic enumeration die
(`DiePerfect`), together with theorems settling the specification claims.

Modelling conventions:
* A source die is modelled by the infinite stream `σ : Nat → Nat` of the
  values its successive `roll()` calls return (each in `[1, source.sides]`).
* Loops whose termination is not structural (`while True` searches) take a
  fuel argument; a `none` result means the Python loop never exits within
  that fuel, and a fuel-independent `none` models divergence.
* Python integers here are naturals; every subtraction performed by the code
  (`v - 1` on a die roll `v ≥ 1`, `num_dice - k - 1` for `k < num_dice`)
  never goes below zero, so truncated `Nat` subtraction agrees with Python.
-/

/-- The `num_dice` search shared verbatim by `DiePower.__init__` and
`DieCombo.__init__`: starting from `n`, increment until
`source.sides ^ n >= sides`.  `s` is `source.sides`, `sides` the target. -/
def numDiceAux (s sides : Nat) : Nat → Nat → Option Nat
  | 0, _ => none
  | fuel + 1, n => if sides ≤ s ^ n then some n else numDiceAux s sides fuel (n + 1)

/-- The computed `num_dice` field.  The fuel `sides + 1` is sufficient
whenever the Python loop terminates at all (for `s ≥ 2` the answer is at
most `sides`), so `numDice s sides = none` exactly when
`DiePower.__init__` / `DieCombo.__init__` loops forever. -/
def numDice (s sides : Nat) : Option Nat :=
  numDiceAux s sides (sides + 1) 0

/-- `DieCombo.__init__`: `self.divider = pow(self.source.sides, self.num_dice) // self.sides`. -/
def comboDivider (s sides nd : Nat) : Nat :=
  s ^ nd / sides

/-- The configuration error raised by `DieDivider.__init__`; its message
carries the source's side count and the target's side count. -/
structure ConfigurationError where
  fromSides : Nat
  toSides : Nat
deriving DecidableEq, Repr

/-- `DieDivider.__init__`: raises iff `source.sides % sides != 0`, with both
side counts in the error; otherwise the die is constructed. -/
def DieDivider_init (sides ssides : Nat) : Except ConfigurationError Unit :=
  if ssides % sides ≠ 0 then Except.error ⟨ssides, sides⟩ else Except.ok ()

/-- `DieDivider.roll`: `divisor = source.sides // sides` recomputed per call,
result `math.ceil(r / divisor)`; on positive integers
`ceil(r / d) = (r + d - 1) / d` with floor division. -/
def dieDividerRoll (sides ssides r : Nat) : Nat :=
  (r + ssides / sides - 1) / (ssides / sides)

/-- All tuples of `{1..sides}^nd` in lexicographic order: the recursion of
`DiePerfect.__each`, which prepends each face `i ∈ [1, sides]` to every
tuple produced for the remaining positions. -/
def lexTuples (sides : Nat) : Nat → List (List Nat)
  | 0 => [[]]
  | nd + 1 => (List.range sides).flatMap (fun i => (lexTuples sides nd).map (fun t => (i + 1) :: t))

/-- The finite list `DiePerfect.__each` materialises before `itertools.cycle`
wraps it: the lexicographic tuples flattened into single rolls. -/
def perfectList (sides nd : Nat) : List Nat :=
  (lexTuples sides nd).flatMap id

/-- `DiePerfect.roll` on its `j`-th call (0-indexed): `itertools.cycle` hands
out element `j mod length` of the flattened enumeration. -/
def perfectRoll (sides nd j : Nat) : Nat :=
  (perfectList sides nd).getD (j % (perfectList sides nd).length) 0

/-- The batch `self.source(count=nd)` drawn on attempt `j`: the stream values
at global draw indices `j*nd, …, j*nd + nd - 1`, in draw order. -/
def batchOf (σ : Nat → Nat) (nd j : Nat) : List Nat :=
  (List.range nd).map (fun i => σ (j * nd + i))

/-- The composite `DiePower.roll` computes from one batch:
`1 + sum(pow(source.sides, k) * (v - 1) for (k, v) in enumerate(rolls))`,
least-significant digit first. -/
def powerComposite (s : Nat) (rolls : List Nat) : Nat :=
  1 + (rolls.enum.map (fun kv => s ^ kv.1 * (kv.2 - 1))).sum

/-- The raw composite `DieCombo.roll` computes from one batch:
`sum(pow(source.sides, nd-k-1) * (v - 1) for (k, v) in enumerate(rolls))`,
most-significant digit first (before division and the `+ 1` shift). -/
def comboComposite (s nd : Nat) (rolls : List Nat) : Nat :=
  (rolls.enum.map (fun kv => s ^ (nd - kv.1 - 1) * (kv.2 - 1))).sum

/-- The rejection loop of `DiePower.roll`, starting at attempt `j`: draw a
batch, form the composite, retry on `v > sides`, else return `v` together
with the index of the accepting attempt. -/
def powerRollAux (s sides nd : Nat) (σ : Nat → Nat) : Nat → Nat → Option (Nat × Nat)
  | 0, _ => none
  | fuel + 1, j =>
    if sides < powerComposite s (batchOf σ nd j) then powerRollAux s sides nd σ fuel (j + 1)
    else some (powerComposite s (batchOf σ nd j), j)

/-- `DiePower.roll`: the rejection loop started at attempt 0.  A result
`some (v, j)` means the call returns `v` after `j` rejected batches, having
consumed `(j + 1) * nd` source draws. -/
def powerRoll (s sides nd : Nat) (σ : Nat → Nat) (fuel : Nat) : Option (Nat × Nat) :=
  powerRollAux s sides nd σ fuel 0

/-- The rejection loop of `DieCombo.roll`: draw a batch, form the raw
composite, floor-divide by the stored `divider`, add 1, retry on
`v > sides`, else return `v` with the accepting attempt index. -/
def comboRollAux (s sides nd divider : Nat) (σ : Nat → Nat) : Nat → Nat → Option (Nat × Nat)
  | 0, _ => none
  | fuel + 1, j =>
    if sides < comboComposite s nd (batchOf σ nd j) / divider + 1 then
      comboRollAux s sides nd divider σ fuel (j + 1)
    else some (comboComposite s nd (batchOf σ nd j) / divider + 1, j)

/-- `DieCombo.roll`: the rejection loop started at attempt 0. -/
def comboRoll (s sides nd divider : Nat) (σ : Nat → Nat) (fuel : Nat) : Option (Nat × Nat) :=
  comboRollAux s sides nd divider σ fuel 0

/-- Size of `DiePower.roll`'s rejected region over the raw composite range
`[0, s^nd)`: the code rejects a batch with raw composite `x` iff the value
`x + 1` it computes exceeds `sides`. -/
def radixRejectCount (s sides nd : Nat) : Nat :=
  ((Finset.range (s ^ nd)).filter (fun x => sides < x + 1)).card

/-- Size of `DieCombo.roll`'s rejected region over the raw composite range
`[0, s^nd)`: the code rejects a batch with raw composite `x` iff the value
`x / divider + 1` it computes exceeds `sides`. -/
def comboRejectCount (s sides nd : Nat) : Nat :=
  ((Finset.range (s ^ nd)).filter (fun x => sides < x / comboDivider s sides nd + 1)).card

/-! ### Helper lemmas about the `num_dice` search -/

theorem numDiceAux_eq_some (s sides n : Nat) (hn : sides ≤ s ^ n)
    (hmin : ∀ m, m < n → s ^ m < sides) :
    ∀ fuel j, j ≤ n → n - j < fuel → numDiceAux s sides fuel j = some n := by
  intro fuel
  induction fuel with
  | zero => intro j _ hfj; omega
  | succ f ih =>
    intro j hj hfj
    by_cases hc : sides ≤ s ^ j
    · have hje : j = n := by
        rcases Nat.lt_or_ge j n with hlt | hge
        · exact absurd hc (not_le.mpr (hmin j hlt))
        · omega
      subst hje
      simp [numDiceAux, hc]
    · have hjn : j ≠ n := fun he => hc (he ▸ hn)
      simp only [numDiceAux, if_neg hc]
      exact ih (j + 1) (by omega) (by omega)

theorem numDiceAux_some_le (s sides : Nat) :
    ∀ fuel j n, numDiceAux s sides fuel j = some n → sides ≤ s ^ n := by
  intro fuel
  induction fuel with
  | zero => intro j n h; simp [numDiceAux] at h
  | succ f ih =>
    intro j n h
    by_cases hc : sides ≤ s ^ j
    · simp [numDiceAux, hc] at h
      exact h ▸ hc
    · simp only [numDiceAux, if_neg hc] at h
      exact ih (j + 1) n h

theorem numDice_some_le (s sides nd : Nat) (h : numDice s sides = some nd) :
    sides ≤ s ^ nd :=
  numDiceAux_some_le s sides (sides + 1) 0 nd h

/-! ### Claims about construction (C5, C6, C7) -/

/-- Claim C6: for `source.sides ≥ 2` the computed `num_dice` is the smallest
`n` with `source.sides ^ n ≥ sides`; concretely, for `sides = 16` and
`source.sides = 6` the search yields `num_dice = 2`, and `DieCombo` stores
`reroll_divisor = 36 / 16 = 2`. -/
theorem numDice_is_least (s sides : Nat) (hs : 2 ≤ s) :
    (∃ n, numDice s sides = some n ∧ sides ≤ s ^ n ∧ ∀ m, m < n → s ^ m < sides) ∧
    numDice 6 16 = some 2 ∧ comboDivider 6 16 2 = 2 := by
  refine ⟨?_, by decide, by decide⟩
  have hat : sides ≤ s ^ sides :=
    le_trans (le_of_lt (Nat.lt_two_pow sides)) (Nat.pow_le_pow_left hs sides)
  have hex : ∃ n, sides ≤ s ^ n := ⟨sides, hat⟩
  have hspec : sides ≤ s ^ Nat.find hex := Nat.find_spec hex
  have hmin : ∀ m, m < Nat.find hex → s ^ m < sides := fun m hm =>
    not_le.mp (Nat.find_min hex hm)
  have hub : Nat.find hex ≤ sides := Nat.find_min' hex hat
  exact ⟨Nat.find hex,
    numDiceAux_eq_some s sides (Nat.find hex) hspec hmin (sides + 1) 0 (by omega) (by omega),
    hspec, hmin⟩

theorem numDice_is_least_witness :
    numDice 6 16 = some 2 ∧ comboDivider 6 16 2 = 2 :=
  (numDice_is_least 6 16 (by decide)).2

/-- Claim C5 (code-bug evidence): the code performs no construction-time
validation.  With `source.sides = 1` and target `sides = 2` the `num_dice`
search never succeeds (`1 ^ n < 2` for every `n`), so `DiePower.__init__` /
`DieCombo.__init__` loops forever instead of raising a `ConfigurationError`;
and with target `sides = 0` construction succeeds silently (`num_dice = 0`),
returning a die object with no error. -/
theorem construction_performs_no_validation :
    numDice 1 2 = none ∧ (∀ n : Nat, 1 ^ n < 2) ∧ numDice 6 0 = some 0 := by
  refine ⟨by decide, ?_, by decide⟩
  intro n
  simp

/-- Claim C7: `DieDivider.__init__` raises exactly when
`source.sides % sides != 0`, the raised error carries both offending side
counts (source first, target second), and in particular `sides = 4` from
`source.sides = 6` fails with the error carrying `(6, 4)`. -/
theorem dieDivider_configuration_error (sides ssides : Nat) (h : 1 ≤ sides) :
    (ssides % sides ≠ 0 →
      DieDivider_init sides ssides = Except.error ⟨ssides, sides⟩) ∧
    (ssides % sides = 0 → DieDivider_init sides ssides = Except.ok ()) ∧
    DieDivider_init 4 6 = Except.error ⟨6, 4⟩ := by
  refine ⟨fun hm => ?_, fun hm => ?_, rfl⟩
  · simp [DieDivider_init, hm]
  · simp [DieDivider_init, hm]

theorem dieDivider_configuration_error_witness :
    DieDivider_init 4 6 = Except.error ⟨6, 4⟩ :=
  (dieDivider_configuration_error 4 6 (by decide)).2.2

/-- Claim C9: `DiePerfect` with `sides = 2, num_dice = 2` yields
`[1,1, 1,2, 2,1, 2,2]` on its first 8 `roll()` calls — the lexicographic
Cartesian product `{1,2}^2` flattened — and repeats that sequence with
period 8 forever after. -/
theorem diePerfect_enumeration_2_2 :
    (List.range 8).map (fun j => perfectRoll 2 2 j) = [1, 1, 1, 2, 2, 1, 2, 2] ∧
    lexTuples 2 2 = [[1, 1], [1, 2], [2, 1], [2, 2]] ∧
    ∀ j, perfectRoll 2 2 (j + 8) = perfectRoll 2 2 j := by
  refine ⟨by decide, by decide, fun j => ?_⟩
  have hlen : (perfectList 2 2).length = 8 := by decide
  simp only [perfectRoll, hlen, Nat.add_mod_right]

/-- Claim C10: with target `sides = 1` both converters compute
`num_dice = 0`; every `roll()` builds the empty batch, computes the value 1,
accepts it on the first attempt (index 0), and — the batch being empty —
reads nothing from the source stream. -/
theorem roll_with_one_side (s fuel : Nat) (σ : Nat → Nat) (hf : 1 ≤ fuel) :
    numDice s 1 = some 0 ∧
    powerRoll s 1 0 σ fuel = some (1, 0) ∧
    comboRoll s 1 0 (comboDivider s 1 0) σ fuel = some (1, 0) := by
  obtain ⟨f, rfl⟩ : ∃ f, fuel = f + 1 := ⟨fuel - 1, by omega⟩
  refine ⟨by simp [numDice, numDiceAux], ?_, ?_⟩
  · simp [powerRoll, powerRollAux, batchOf, powerComposite]
  · simp [comboRoll, comboRollAux, batchOf, comboComposite, comboDivider]

theorem roll_with_one_side_witness :
    numDice 6 1 = some 0 ∧
    powerRoll 6 1 0 (fun _ => 1) 1 = some (1, 0) ∧
    comboRoll 6 1 0 (comboDivider 6 1 0) (fun _ => 1) 1 = some (1, 0) :=
  roll_with_one_side 6 1 (fun _ => 1) (by decide)

/-! ### Helper lemmas about the rejection loops -/

theorem powerRollAux_first (s sides nd : Nat) (σ : Nat → Nat) (j₀ : Nat)
    (hacc : powerComposite s (batchOf σ nd j₀) ≤ sides) :
    ∀ fuel j, j ≤ j₀ →
      (∀ i, j ≤ i → i < j₀ → sides < powerComposite s (batchOf σ nd i)) →
      j₀ - j < fuel →
      powerRollAux s sides nd σ fuel j = some (powerComposite s (batchOf σ nd j₀), j₀) := by
  intro fuel
  induction fuel with
  | zero => intro j _ _ hfj; omega
  | succ f ih =>
    intro j hj hrej hfj
    rcases Nat.lt_or_ge j j₀ with hlt | hge
    · have hr : sides < powerComposite s (batchOf σ nd j) := hrej j le_rfl hlt
      simp only [powerRollAux, if_pos hr]
      exact ih (j + 1) (by omega) (fun i h1 h2 => hrej i (by omega) h2) (by omega)
    · have hje : j = j₀ := by omega
      subst hje
      simp only [powerRollAux, if_neg (not_lt.mpr hacc)]

theorem comboRollAux_first (s sides nd divider : Nat) (σ : Nat → Nat) (j₀ : Nat)
    (hacc : comboComposite s nd (batchOf σ nd j₀) / divider + 1 ≤ sides) :
    ∀ fuel j, j ≤ j₀ →
      (∀ i, j ≤ i → i < j₀ → sides < comboComposite s nd (batchOf σ nd i) / divider + 1) →
      j₀ - j < fuel →
      comboRollAux s sides nd divider σ fuel j =
        some (comboComposite s nd (batchOf σ nd j₀) / divider + 1, j₀) := by
  intro fuel
  induction fuel with
  | zero => intro j _ _ hfj; omega
  | succ f ih =>
    intro j hj hrej hfj
    rcases Nat.lt_or_ge j j₀ with hlt | hge
    · have hr : sides < comboComposite s nd (batchOf σ nd j) / divider + 1 := hrej j le_rfl hlt
      simp only [comboRollAux, if_pos hr]
      exact ih (j + 1) (by omega) (fun i h1 h2 => hrej i (by omega) h2) (by omega)
    · have hje : j = j₀ := by omega
      subst hje
      simp only [comboRollAux, if_neg (not_lt.mpr hacc)]

theorem powerRollAux_range (s sides nd : Nat) (σ : Nat → Nat) :
    ∀ fuel j v i, powerRollAux s sides nd σ fuel j = some (v, i) → 1 ≤ v ∧ v ≤ sides := by
  intro fuel
  induction fuel with
  | zero => intro j v i h; simp [powerRollAux] at h
  | succ f ih =>
    intro j v i h
    by_cases hc : sides < powerComposite s (batchOf σ nd j)
    · simp only [powerRollAux, if_pos hc] at h
      exact ih (j + 1) v i h
    · simp only [powerRollAux, if_neg hc, Option.some.injEq, Prod.mk.injEq] at h
      refine ⟨?_, ?_⟩
      · rw [← h.1]; simp [powerComposite]
      · rw [← h.1]; exact not_lt.mp hc

theorem comboRollAux_range (s sides nd divider : Nat) (σ : Nat → Nat) :
    ∀ fuel j v i, comboRollAux s sides nd divider σ fuel j = some (v, i) → 1 ≤ v ∧ v ≤ sides := by
  intro fuel
  induction fuel with
  | zero => intro j v i h; simp [comboRollAux] at h
  | succ f ih =>
    intro j v i h
    by_cases hc : sides < comboComposite s nd (batchOf σ nd j) / divider + 1
    · simp only [comboRollAux, if_pos hc] at h
      exact ih (j + 1) v i h
    · simp only [comboRollAux, if_neg hc, Option.some.injEq, Prod.mk.injEq] at h
      refine ⟨?_, ?_⟩
      · rw [← h.1]; exact Nat.succ_le_succ (Nat.zero_le _)
      · rw [← h.1]; exact not_lt.mp hc

/-! ### Claims about the rejection-sampling rolls (C1, C2, C8) -/

/-- Claim C1: on a `DiePower` built over a source with `source.sides ≥ 2`,
`roll()` draws `num_dice`-value batches from the source stream, computes the
least-significant-digit-first composite `1 + Σ source.sides^k * (d_k - 1)`
for each batch, discards every batch whose composite exceeds `sides`, and
returns exactly the composite of the first batch whose composite is
`≤ sides` (here batch `j₀`, reached with any sufficient fuel). -/
theorem diePower_roll_first_accepted (s sides nd j₀ fuel : Nat) (σ : Nat → Nat)
    (hs : 2 ≤ s) (hσ : ∀ i, 1 ≤ σ i ∧ σ i ≤ s)
    (hnd : numDice s sides = some nd)
    (hacc : powerComposite s (batchOf σ nd j₀) ≤ sides)
    (hfirst : ∀ i, i < j₀ → sides < powerComposite s (batchOf σ nd i))
    (hfuel : j₀ < fuel) :
    powerRoll s sides nd σ fuel = some (powerComposite s (batchOf σ nd j₀), j₀) :=
  powerRollAux_first s sides nd σ j₀ hacc fuel 0 (Nat.zero_le j₀)
    (fun i _ h2 => hfirst i h2) (by omega)

theorem diePower_roll_first_accepted_witness :
    powerRoll 6 16 2 (fun _ => 1) 1 = some (1, 0) :=
  diePower_roll_first_accepted 6 16 2 0 1 (fun _ => 1) (by decide)
    (fun i => ⟨Nat.le_refl 1, (by decide : (1:Nat) ≤ 6)⟩) (by decide) (by decide)
    (fun i hi => absurd hi (Nat.not_lt_zero i)) (by decide)

/-- Claim C2: on a `DieCombo` built over a source with `source.sides ≥ 2`,
`roll()` draws `num_dice`-value batches, computes the
most-significant-digit-first raw composite `Σ source.sides^(nd-1-i) * (d_i - 1)`,
floor-divides it by the stored `reroll_divisor = source.sides^nd / sides`,
adds 1, discards the batch when the result exceeds `sides`, and returns the
result for the first accepting batch (here batch `j₀`). -/
theorem dieCombo_roll_first_accepted (s sides nd j₀ fuel : Nat) (σ : Nat → Nat)
    (hs : 2 ≤ s) (hσ : ∀ i, 1 ≤ σ i ∧ σ i ≤ s)
    (hnd : numDice s sides = some nd)
    (hacc : comboComposite s nd (batchOf σ nd j₀) / comboDivider s sides nd + 1 ≤ sides)
    (hfirst : ∀ i, i < j₀ →
      sides < comboComposite s nd (batchOf σ nd i) / comboDivider s sides nd + 1)
    (hfuel : j₀ < fuel) :
    comboRoll s sides nd (comboDivider s sides nd) σ fuel =
      some (comboComposite s nd (batchOf σ nd j₀) / comboDivider s sides nd + 1, j₀) :=
  comboRollAux_first s sides nd (comboDivider s sides nd) σ j₀ hacc fuel 0 (Nat.zero_le j₀)
    (fun i _ h2 => hfirst i h2) (by omega)

theorem dieCombo_roll_first_accepted_witness :
    comboRoll 6 16 2 (comboDivider 6 16 2) (fun _ => 1) 1 = some (1, 0) :=
  dieCombo_roll_first_accepted 6 16 2 0 1 (fun _ => 1) (by decide)
    (fun i => ⟨Nat.le_refl 1, (by decide : (1:Nat) ≤ 6)⟩) (by decide) (by decide)
    (fun i hi => absurd hi (Nat.not_lt_zero i)) (by decide)

/-- Claim C8: whatever value a `DiePower` or `DieCombo` `roll()` accepts lies
in `[1, sides]`: the loop only returns values that passed the `v > sides`
test, and both computed values are of the form `1 + _` / `_ + 1`. -/
theorem roll_results_in_range (s sides nd divider fuel v j : Nat) (σ : Nat → Nat) :
    (powerRoll s sides nd σ fuel = some (v, j) → 1 ≤ v ∧ v ≤ sides) ∧
    (comboRoll s sides nd divider σ fuel = some (v, j) → 1 ≤ v ∧ v ≤ sides) :=
  ⟨fun h => powerRollAux_range s sides nd σ fuel 0 v j h,
   fun h => comboRollAux_range s sides nd divider σ fuel 0 v j h⟩

theorem roll_results_in_range_witness :
    ((1:Nat) ≤ 1 ∧ (1:Nat) ≤ 16) ∧ ((1:Nat) ≤ 1 ∧ (1:Nat) ≤ 16) :=
  ⟨(roll_results_in_range 6 16 2 2 1 1 0 (fun _ => 1)).1 (by decide),
   (roll_results_in_range 6 16 2 2 1 1 0 (fun _ => 1)).2 (by decide)⟩

/-! ### Helper lemmas for the enumeration die and block counting -/

theorem flatten_flatMap_single (l : List Nat) (f : Nat → Nat) :
    (l.flatMap (fun a => [[f a]])).flatten = l.map f := by
  induction l with
  | nil => rfl
  | cons a t ih => simp [ih]

theorem perfectList_one (n : Nat) :
    perfectList n 1 = (List.range n).map (fun i => i + 1) := by
  simp [perfectList, lexTuples, flatten_flatMap_single]

theorem perfectRoll_one (n j : Nat) (h : j < n) : perfectRoll n 1 j = j + 1 := by
  have hpl : perfectList n 1 = (List.range n).map (fun i => i + 1) := perfectList_one n
  have hlen : (perfectList n 1).length = n := by rw [hpl]; simp
  rw [perfectRoll, hlen, Nat.mod_eq_of_lt h, hpl]
  rw [List.getD_eq_getElem _ _ (by simpa using h)]
  simp

theorem card_div_block (d m c : Nat) (hd : 0 < d) (hc : c < m) :
    ((Finset.range (m * d)).filter (fun j => j / d = c)).card = d := by
  have hset : (Finset.range (m * d)).filter (fun j => j / d = c)
      = Finset.Ico (c * d) (c * d + d) := by
    ext j
    simp only [Finset.mem_filter, Finset.mem_range, Finset.mem_Ico]
    constructor
    · rintro ⟨hjm, hdc⟩
      have hlo : c * d ≤ j := (Nat.le_div_iff_mul_le hd).mp (le_of_eq hdc.symm)
      have hhi : j < (c + 1) * d := (Nat.div_lt_iff_lt_mul hd).mp (by omega)
      constructor
      · exact hlo
      · calc j < (c + 1) * d := hhi
          _ = c * d + d := by ring
    · rintro ⟨hlo, hhi⟩
      have hup : j < (c + 1) * d := by calc j < c * d + d := hhi
                                        _ = (c + 1) * d := by ring
      have hdiv : j / d = c := by
        have ha : c ≤ j / d := (Nat.le_div_iff_mul_le hd).mpr hlo
        have hb : j / d < c + 1 := (Nat.div_lt_iff_lt_mul hd).mpr hup
        omega
      refine ⟨?_, hdiv⟩
      calc j < (c + 1) * d := hup
        _ ≤ m * d := Nat.mul_le_mul_right d hc
  rw [hset, Nat.card_Ico]
  omega

theorem card_filter_range_le (N c : Nat) :
    ((Finset.range N).filter (fun x => c ≤ x)).card = N - c := by
  have hset : (Finset.range N).filter (fun x => c ≤ x) = Finset.Ico c N := by
    ext x
    simp only [Finset.mem_filter, Finset.mem_range, Finset.mem_Ico]
    constructor
    · rintro ⟨hx, hc⟩; exact ⟨hc, hx⟩
    · rintro ⟨hc, hx⟩; exact ⟨hx, hc⟩
  rw [hset, Nat.card_Ico]

/-! ### Claims about the divisor converter (C3) and retry comparison (C4) -/

/-- Claim C3: a validly constructed `DieDivider` (`source.sides % sides = 0`)
returns `ceil(r / divisor)` of its single source draw, and driving it with
the deterministic enumeration source (whose `j`-th roll is `j + 1`) for
exactly `source.sides` rolls yields every face `f ∈ [1, sides]` exactly
`source.sides / sides` times — zero deviation. -/
theorem dieDivider_exact (sides ssides : Nat) (h1 : 1 ≤ sides) (h3 : 1 ≤ ssides)
    (h2 : ssides % sides = 0) :
    (∀ j, j < ssides → perfectRoll ssides 1 j = j + 1) ∧
    (∀ f, 1 ≤ f → f ≤ sides →
      ((Finset.range ssides).filter
          (fun j => dieDividerRoll sides ssides (perfectRoll ssides 1 j) = f)).card
        = ssides / sides) := by
  have hdvd : sides ∣ ssides := Nat.dvd_of_mod_eq_zero h2
  have hmul : sides * (ssides / sides) = ssides := Nat.mul_div_cancel' hdvd
  have hd : 0 < ssides / sides := Nat.div_pos (Nat.le_of_dvd (by omega) hdvd) (by omega)
  refine ⟨fun j hj => perfectRoll_one ssides j hj, fun f hf1 hf2 => ?_⟩
  have hcong : (Finset.range ssides).filter
      (fun j => dieDividerRoll sides ssides (perfectRoll ssides 1 j) = f)
      = (Finset.range ssides).filter (fun j => j / (ssides / sides) = f - 1) := by
    apply Finset.filter_congr
    intro j hj
    rw [Finset.mem_range] at hj
    rw [perfectRoll_one ssides j hj]
    rw [dieDividerRoll]
    have he : j + 1 + ssides / sides - 1 = j + ssides / sides := by omega
    rw [he, Nat.add_div_right j hd]
    constructor
    · intro h; omega
    · intro h; omega
  rw [hcong]
  have hrange : ssides = sides * (ssides / sides) := hmul.symm
  rw [show (Finset.range ssides) = Finset.range (sides * (ssides / sides)) from by rw [← hrange]]
  exact card_div_block (ssides / sides) sides (f - 1) hd (by omega)

theorem dieDivider_exact_witness :
    ((Finset.range 6).filter (fun j => dieDividerRoll 3 6 (perfectRoll 6 1 j) = 2)).card = 6 / 3 :=
  (dieDivider_exact 3 6 (by decide) (by decide) (by decide)).2 2 (by decide) (by decide)

/-- Claim C4, counterexample to the stated equality condition: with target
`sides = 20` over a 6-sided source the search gives `num_dice = 2`, the
Combined and Radix rejected regions are both of size 16 (`36 - 20`), yet
`6^2 mod 20 = 16 ≠ 0` — so equality of the rejected regions (and hence of
expected draws per accepted roll) does not force `s^nd mod sides = 0`. -/
theorem combo_radix_equality_counterexample :
    numDice 6 20 = some 2 ∧
    comboRejectCount 6 20 2 = radixRejectCount 6 20 2 ∧
    6 ^ 2 % 20 ≠ 0 := by
  refine ⟨by decide, by decide, by decide⟩

/-- Claim C4 (amended): over the raw-composite range `[0, s^nd)`, the
Combined converter rejects exactly `s^nd mod sides` values while the Radix
converter rejects `s^nd - sides`; the Combined count is never larger, and
the two are equal exactly when `reroll_divisor = s^nd / sides` equals 1 —
not exactly when `s^nd mod sides = 0` as the original claim stated. -/
theorem combo_reject_le_radix_reject (s sides nd : Nat) (hs : 2 ≤ s) (h1 : 1 ≤ sides)
    (hnd : numDice s sides = some nd) :
    comboRejectCount s sides nd = s ^ nd % sides ∧
    radixRejectCount s sides nd = s ^ nd - sides ∧
    comboRejectCount s sides nd ≤ radixRejectCount s sides nd ∧
    (comboRejectCount s sides nd = radixRejectCount s sides nd ↔ comboDivider s sides nd = 1) := by
  have hle : sides ≤ s ^ nd := numDice_some_le s sides nd hnd
  have hdpos : 0 < comboDivider s sides nd := Nat.div_pos hle (by omega)
  have hradix : radixRejectCount s sides nd = s ^ nd - sides := by
    rw [radixRejectCount]
    have hcong : (Finset.range (s ^ nd)).filter (fun x => sides < x + 1)
        = (Finset.range (s ^ nd)).filter (fun x => sides ≤ x) :=
      Finset.filter_congr (fun x _ => by omega)
    rw [hcong, card_filter_range_le]
  have hid : sides * comboDivider s sides nd + s ^ nd % sides = s ^ nd :=
    Nat.div_add_mod (s ^ nd) sides
  have hmlt : s ^ nd % sides < sides := Nat.mod_lt (s ^ nd) (by omega)
  have hcombo : comboRejectCount s sides nd = s ^ nd - sides * comboDivider s sides nd := by
    rw [comboRejectCount]
    have hcong : (Finset.range (s ^ nd)).filter (fun x => sides < x / comboDivider s sides nd + 1)
        = (Finset.range (s ^ nd)).filter (fun x => sides * comboDivider s sides nd ≤ x) := by
      apply Finset.filter_congr
      intro x _
      constructor
      · intro h
        exact (Nat.le_div_iff_mul_le hdpos).mp (by omega)
      · intro h
        have hax := (Nat.le_div_iff_mul_le hdpos).mpr h
        omega
    rw [hcong, card_filter_range_le]
  have hsd : sides ≤ sides * comboDivider s sides nd := Nat.le_mul_of_pos_right sides hdpos
  refine ⟨by omega, hradix, by omega, ?_⟩
  rw [hcombo, hradix]
  constructor
  · intro h
    have heq : sides * comboDivider s sides nd = sides * 1 := by omega
    exact Nat.eq_of_mul_eq_mul_left (by omega) heq
  · intro h
    rw [h]
    omega

theorem combo_reject_le_radix_reject_witness :
    comboRejectCount 6 16 2 = 6 ^ 2 % 16 ∧ comboRejectCount 6 16 2 ≤ radixRejectCount 6 16 2 :=
  ⟨(combo_reject_le_radix_reject 6 16 2 (by decide) (by decide) (by decide)).1,
   (combo_reject_le_radix_reject 6 16 2 (by decide) (by decide) (by decide)).2.2.1⟩
